import Mathlib

/-
Verification of the OxyMcts core: a hash-addressed search tree (`src/tree.rs`)
and the lazy MCTS orchestrator built on it (`src/tree_search.rs`).

The tree is embedded as an association list from node ids to node records;
insertion appends at the end, lookup returns the first entry with the key
(keys are never duplicated because insertion happens only through the
get-or-insert primitive).  `DashMap` locking is not modelled: the claims are
settled for the sequential semantics of the operations.  A Rust `panic!` or
`expect` is modelled as `none` in an `Option`-valued result.
-/

set_option autoImplicit false

namespace OxyMcts

/-- `NodeId = u64`: the id of a node is the hash of the state it represents.
Ids are only compared for equality (and against the sentinel `0`), never
computed with, so they are modelled as `Nat`. -/
abbrev NodeId := Nat

/-- A node record, from `struct Node<T>` in `tree.rs`: the id of the node that
first created it (`0` is the sentinel used by the root), the ordered list of
child ids, and the payload. -/
structure Node (T : Type) where
  parent : NodeId
  children : List NodeId
  value : T
deriving DecidableEq

/-- The node store, from `struct Tree<T>` in `tree.rs`: a map from node id to
node record plus the root id.  The `DashMap` is modelled as an association
list (insertion order preserved, first-match lookup). -/
structure Tree (T : Type) where
  map : List (NodeId × Node T)
  root : NodeId
deriving DecidableEq

/-- Map lookup, modelling `DashMap::get` / `get_mut`. -/
def alookup {T : Type} : List (NodeId × Node T) → NodeId → Option (Node T)
  | [], _ => none
  | p :: rest, id => if p.1 = id then some p.2 else alookup rest id

/-- In-place update of the entry keyed `id` (a write through a held
`RefMut`). -/
def amodify {T : Type} (m : List (NodeId × Node T)) (id : NodeId)
    (f : Node T → Node T) : List (NodeId × Node T) :=
  m.map (fun p => (p.1, if p.1 = id then f p.2 else p.2))

/-- `DashMap::entry(id).or_insert_with(|| n)`: keep the map unchanged when the
key is present, otherwise add the new entry. -/
def aentryOrInsert {T : Type} (m : List (NodeId × Node T)) (id : NodeId)
    (n : Node T) : List (NodeId × Node T) :=
  if (alookup m id).isSome then m else m ++ [(id, n)]

/-- `Tree::new(root)`: seed the store with a single root node whose parent is
the sentinel `0`.  The `hash` parameter stands for the `Hashed` trait. -/
def Tree.new {T : Type} (hash : T → NodeId) (root : T) : Tree T :=
  { map := [(hash root, { parent := 0, children := [], value := root })]
    root := hash root }

/-- `Tree::with_capacity(root, capacity)`: identical to `new` except for the
pre-sized allocation, which has no observable effect on the contents. -/
def Tree.with_capacity {T : Type} (hash : T → NodeId) (root : T)
    (_capacity : Nat) : Tree T :=
  Tree.new hash root

/-- `Tree::get` (and `get_mut`): an optional handle to the node keyed `id`. -/
def Tree.get {T : Type} (t : Tree T) (id : NodeId) : Option (Node T) :=
  alookup t.map id

/-- `Tree::root()`: the root handle; the `unwrap` inside it is modelled by the
`Option` (`none` would be the panic). -/
def Tree.root_node {T : Type} (t : Tree T) : Option (Node T) :=
  t.get t.root

/-- `Tree::root_id()`. -/
def Tree.root_id {T : Type} (t : Tree T) : NodeId :=
  t.root

/-- `NodeMutRef::add_child(value)` called on a handle to the node keyed
`parentId`: compute `id = hash value`, push `id` onto the calling node's
children list, drop the handle, then get-or-insert a fresh node
`{parent := parentId, children := [], value}` under `id`.  Returns the updated
store and the id the returned child handle points at. -/
def Tree.add_child {T : Type} (hash : T → NodeId) (t : Tree T)
    (parentId : NodeId) (value : T) : Tree T × NodeId :=
  let id := hash value
  let m1 := amodify t.map parentId
    (fun n => { n with children := n.children ++ [id] })
  let m2 := aentryOrInsert m1 id
    { parent := parentId, children := [], value := value }
  ({ t with map := m2 }, id)

/-- `NodeMutRef::parent_id()`: panics (here `none`) when the stored parent id
is the sentinel `0`, otherwise returns the stored parent id. -/
def Node.parent_id {T : Type} (n : Node T) : Option NodeId :=
  if n.parent = 0 then none else some n.parent

/-- The loop of `NodeRef::get_best_child`: walk the cloned children list
carrying the running maximum score and best child.  The per-child map lookup
is `unwrap`ped in the source, so an absent child makes the whole call panic
(outer `none`).  The score type generalises the crate's `Num` alias (not part
of the shown core); per the spec it only needs a maximum, i.e. a linear
order. -/
def getBestChildLoop {T Score : Type} [LinearOrder Score] (t : Tree T)
    (f : T → Score) :
    List NodeId → Option Score → Option NodeId → Option (Option NodeId)
  | [], _maxScore, best => some best
  | c :: rest, maxScore, best =>
    match t.get c with
    | none => none
    | some child =>
      let score := f child.value
      let better : Bool :=
        match maxScore with
        | none => true
        | some m => decide (m < score)
      if better then getBestChildLoop t f rest (some score) (some c)
      else getBestChildLoop t f rest maxScore best

/-- `NodeRef::get_best_child(f)` on a handle to node `n`: evaluate `f` over
every child's payload and return the id of the first child attaining the
maximum (`score > max_score` keeps the earlier child on ties).  The outer
`Option` is the panic of the per-child `unwrap`; the inner one is the returned
`Option<NodeId>` (`none` when there are no children). -/
def Tree.get_best_child {T Score : Type} [LinearOrder Score] (t : Tree T)
    (n : Node T) (f : T → Score) : Option (Option NodeId) :=
  getBestChildLoop t f n.children none none

/-- The mutating operations a client can perform on a store through the public
interface: `add_child` through a write handle to an existing node, and payload
replacement through `value_mut` (reads — `get`, `get_mut`, `get_best_child`,
`parent_id` — do not change the store). -/
inductive Op (T : Type) where
  | addChild (p : NodeId) (v : T)
  | setValue (id : NodeId) (v : T)

/-- One operation.  `addChild` requires a handle to the parent, which exists
exactly when the parent id is present; `setValue` rewrites the payload of an
existing node in place. -/
def applyOp {T : Type} (hash : T → NodeId) (t : Tree T) : Op T → Tree T
  | Op.addChild p v =>
      if (t.get p).isSome then (t.add_child hash p v).1 else t
  | Op.setValue id v =>
      { t with map := amodify t.map id (fun n => { n with value := v }) }

/-- A store reachable by a finite sequence of public operations from
`Tree.new`. -/
def runOps {T : Type} (hash : T → NodeId) (root : T) (ops : List (Op T)) :
    Tree T :=
  ops.foldl (applyOp hash) (Tree.new hash root)

/-- Pushing a child id onto a node's children list (the first half of
`add_child`). -/
def pushChild {T : Type} (id : NodeId) (n : Node T) : Node T :=
  { n with children := n.children ++ [id] }

/-- Parent links strictly descend along a ranking: every non-root node's
parent is present in the map and has a smaller rank.  Exhibiting such a
ranking is how a store is shown acyclic. -/
def Ranked {T : Type} (t : Tree T) (rank : NodeId → Nat) : Prop :=
  ∀ id n, t.get id = some n → id ≠ t.root →
    (t.get n.parent).isSome ∧ rank n.parent < rank id

/-- The structural invariant every reachable store satisfies: the root is
present, parent links descend along some ranking, and every id listed in a
children list is a key of the map. -/
structure TreeInv {T : Type} (t : Tree T) : Prop where
  rootMem : (t.get t.root).isSome
  ranked : ∃ rank : NodeId → Nat, Ranked t rank
  closed : ∀ id n, t.get id = some n → ∀ c ∈ n.children, (t.get c).isSome

/-- The ancestor chain of `id` — following stored parent ids, the root having
no parent link — terminates at the root. -/
inductive ReachesRoot {T : Type} (t : Tree T) : NodeId → Prop where
  | root : ReachesRoot t t.root
  | step : ∀ id n, t.get id = some n → id ≠ t.root → ReachesRoot t n.parent →
      ReachesRoot t id

/-- `StrictAnc t a b`: `a` is a strict ancestor of `b` via stored parent
links (the root, having no parent link, contributes no step). -/
inductive StrictAnc {T : Type} (t : Tree T) : NodeId → NodeId → Prop where
  | parent : ∀ id n, t.get id = some n → id ≠ t.root → StrictAnc t n.parent id
  | trans : ∀ a b c, StrictAnc t a b → StrictAnc t b c → StrictAnc t a c

/-- Modelled from the spec: the game-state capability (`GameTrait`, declared
in the crate's traits module, which is not among the shown sources) — legal
moves of a state, a stable state hash, and whose turn it is.  Move application
is not needed by the claims, since the tree policy is an injected strategy. -/
structure GameOps (State Move Turn : Type) where
  legals_moves : State → List Move
  hash : State → NodeId
  player_turn : State → Turn

/-- The payload of a lazy MCTS node, with the fields built by
`LazyMcts::with_capacity` in `tree_search.rs`: cumulative reward, visit count,
as-yet-untried legal moves, the hash of the represented state, the move
trajectory from the root (`state`), and strategy-specific extra data.  (The
struct itself is declared in the crate's aliases module, not among the shown
sources.) -/
structure LazyMctsNode (Move R A : Type) where
  sum_rewards : R
  n_visits : Nat
  unvisited_moves : List Move
  hash : NodeId
  state : List Move
  additional_info : A
deriving DecidableEq

/-- Modelled from the spec: the `Hashed` implementation of `LazyMctsNode`
(node id = the stored hash of the game state the node represents; spec §3:
the id doubles as the transposition signature). -/
def lazyNodeHash {Move R A : Type} (n : LazyMctsNode Move R A) : NodeId :=
  n.hash

/-- The orchestrator `LazyMcts`: the immutable root game state plus the node
store.  The four strategies are zero-sized type parameters in the source
(`PhantomData`); here they are passed as function arguments where used. -/
structure LazyMcts (State Move Turn R A : Type) where
  root_state : State
  tree : Tree (LazyMctsNode Move R A)

/-- `LazyMcts::with_capacity(root_state, capacity)`: seed the store with a
root payload carrying zero reward, zero visits, the root state's full legal
move list as untried budget, the root state's hash, an empty trajectory and
default additional info. -/
def LazyMcts.with_capacity {State Move Turn R A : Type} [Zero R] [Inhabited A]
    (g : GameOps State Move Turn) (root_state : State) (capacity : Nat) :
    LazyMcts State Move Turn R A :=
  { root_state := root_state
    tree := Tree.with_capacity lazyNodeHash
      { sum_rewards := (0 : R)
        n_visits := 0
        unvisited_moves := g.legals_moves root_state
        hash := g.hash root_state
        state := []
        additional_info := default } capacity }

/-- `LazyMcts::new(root_state)` delegates to `with_capacity` with capacity
`0`. -/
def LazyMcts.new {State Move Turn R A : Type} [Zero R] [Inhabited A]
    (g : GameOps State Move Turn) (root_state : State) :
    LazyMcts State Move Turn R A :=
  LazyMcts.with_capacity g root_state 0

/-- `LazyMcts::execute(evaluation_args, playout_args)`: one iteration.  The
tree policy receives the store and a clone of the root state (cloning is the
identity on values here) and returns a node id and reconstructed state; the
playout policy advances it; the evaluator scores it from the root player's
perspective; the backprop policy updates the store.  The strategies, which
are external collaborators in the source, are explicit function arguments. -/
def LazyMcts.execute {State Move Turn R A EArgs PArgs EvalR : Type}
    (m : LazyMcts State Move Turn R A)
    (tree_policy :
      Tree (LazyMctsNode Move R A) → State → EArgs → NodeId × State)
    (playout : State → PArgs → State)
    (evaluate_leaf : State → Turn → EvalR)
    (backprop :
      Tree (LazyMctsNode Move R A) → NodeId → EvalR →
        Tree (LazyMctsNode Move R A))
    (g : GameOps State Move Turn)
    (evaluation_args : EArgs) (playout_args : PArgs) :
    LazyMcts State Move Turn R A :=
  let sel := tree_policy m.tree m.root_state evaluation_args
  let final_state := playout sel.2 playout_args
  let eval := evaluate_leaf final_state (g.player_turn m.root_state)
  { m with tree := backprop m.tree sel.1 eval }

/-- `LazyMcts::best_move(evaluator_args)`: ask the tree policy's `best_child`
for a child of the root, look it up (`unwrap`: outer `none` is that panic),
and return the last move of its stored trajectory (`expect`: inner `none` is
the panic on an empty trajectory). -/
def LazyMcts.best_move {State Move Turn R A Args : Type}
    (m : LazyMcts State Move Turn R A)
    (best_child :
      Tree (LazyMctsNode Move R A) → Turn → NodeId → Args → NodeId)
    (g : GameOps State Move Turn) (evaluator_args : Args) :
    Option (Option Move) :=
  let bc := best_child m.tree (g.player_turn m.root_state)
    m.tree.root_id evaluator_args
  match m.tree.get bc with
  | none => none
  | some node => some node.value.state.getLast?

/-- A concrete two-node store over lazy payloads (root `1` with one child `2`
whose trajectory is `[42]`), used to evaluate orchestrator-level theorems on
explicit inputs. -/
def sampleLazyTree : Tree (LazyMctsNode Nat Nat Nat) :=
  { map := [
      (1, { parent := 0, children := [2],
            value := { sum_rewards := 0, n_visits := 0, unvisited_moves := [],
                       hash := 1, state := [], additional_info := 0 } }),
      (2, { parent := 1, children := [],
            value := { sum_rewards := 0, n_visits := 0, unvisited_moves := [],
                       hash := 2, state := [42], additional_info := 0 } })],
    root := 1 }

/-- A concrete orchestrator over `sampleLazyTree`. -/
def sampleMcts : LazyMcts Nat Nat Nat Nat Nat :=
  { root_state := 0, tree := sampleLazyTree }

/-- A concrete game-state capability over `Nat` states. -/
def sampleGame : GameOps Nat Nat Nat :=
  { legals_moves := fun _ => [], hash := fun s => s
    player_turn := fun _ => 0 }

-- ### Lemmas and theorems


theorem alookup_append_of_none {T : Type} {m : List (NodeId × Node T)}
    (l : List (NodeId × Node T)) {id : NodeId} (h : alookup m id = none) :
    alookup (m ++ l) id = alookup l id := by
  induction m with
  | nil => simp
  | cons p rest ih =>
    by_cases hp : p.1 = id
    · simp [alookup, hp] at h
    · simp only [alookup, hp, if_false] at h
      simpa [alookup, hp] using ih h

theorem alookup_append_of_some {T : Type} {m : List (NodeId × Node T)}
    (l : List (NodeId × Node T)) {id : NodeId} {n : Node T}
    (h : alookup m id = some n) : alookup (m ++ l) id = some n := by
  induction m with
  | nil => simp [alookup] at h
  | cons p rest ih =>
    by_cases hp : p.1 = id
    · simp only [alookup, hp, if_true] at h
      simp [alookup, hp, h]
    · simp only [alookup, hp, if_false] at h
      simpa [alookup, hp] using ih h

theorem alookup_amodify_self {T : Type} (m : List (NodeId × Node T))
    (id : NodeId) (f : Node T → Node T) :
    alookup (amodify m id f) id = (alookup m id).map f := by
  induction m with
  | nil => simp [alookup, amodify]
  | cons p rest ih =>
    by_cases hp : p.1 = id
    · simp [alookup, amodify, hp]
    · simpa [alookup, amodify, hp] using ih

theorem alookup_amodify_ne {T : Type} (m : List (NodeId × Node T))
    {id id' : NodeId} (f : Node T → Node T) (h : id' ≠ id) :
    alookup (amodify m id f) id' = alookup m id' := by
  induction m with
  | nil => simp [alookup, amodify]
  | cons p rest ih =>
    by_cases hp' : p.1 = id'
    · simp [alookup, amodify, hp', h]
    · simpa [alookup, amodify, hp'] using ih

theorem alookup_aentryOrInsert_self {T : Type} (m : List (NodeId × Node T))
    (id : NodeId) (n : Node T) :
    alookup (aentryOrInsert m id n) id = some ((alookup m id).getD n) := by
  unfold aentryOrInsert
  cases h : alookup m id with
  | none =>
    simp only [h, Option.isSome_none, Bool.false_eq_true, if_false]
    rw [alookup_append_of_none _ h]
    simp [alookup]
  | some x => simp [h]

theorem alookup_aentryOrInsert_ne {T : Type} (m : List (NodeId × Node T))
    {id id' : NodeId} (n : Node T) (h : id' ≠ id) :
    alookup (aentryOrInsert m id n) id' = alookup m id' := by
  unfold aentryOrInsert
  by_cases hs : (alookup m id).isSome
  · simp [hs]
  · simp only [hs, Bool.false_eq_true, if_false]
    cases h' : alookup m id' with
    | none =>
      rw [alookup_append_of_none _ h']
      simp [alookup, Ne.symm h, h']
    | some x => exact alookup_append_of_some _ h'

theorem add_child_get_other {T : Type} (hash : T → NodeId) (t : Tree T)
    {p : NodeId} (v : T) {id : NodeId} (h1 : id ≠ hash v) (h2 : id ≠ p) :
    (t.add_child hash p v).1.get id = t.get id := by
  show alookup (aentryOrInsert (amodify t.map p _) (hash v) _) id = _
  rw [alookup_aentryOrInsert_ne _ _ h1, alookup_amodify_ne _ _ h2]
  rfl

theorem add_child_get_parent {T : Type} (hash : T → NodeId) (t : Tree T)
    {p : NodeId} (v : T) (h : p ≠ hash v) :
    (t.add_child hash p v).1.get p = (t.get p).map (pushChild (hash v)) := by
  show alookup (aentryOrInsert (amodify t.map p _) (hash v) _) p = _
  rw [alookup_aentryOrInsert_ne _ _ h, alookup_amodify_self]
  rfl

theorem add_child_get_child {T : Type} (hash : T → NodeId) (t : Tree T)
    {p : NodeId} (v : T) (h : hash v ≠ p) :
    (t.add_child hash p v).1.get (hash v) =
      some ((t.get (hash v)).getD
        { parent := p, children := [], value := v }) := by
  show alookup (aentryOrInsert (amodify t.map p _) (hash v) _) (hash v) = _
  rw [alookup_aentryOrInsert_self, alookup_amodify_ne _ _ h]
  rfl

theorem add_child_get_self {T : Type} (hash : T → NodeId) (t : Tree T)
    {p : NodeId} (v : T) (h : hash v = p) :
    (t.add_child hash p v).1.get p =
      some (((t.get p).map (pushChild (hash v))).getD
        { parent := p, children := [], value := v }) := by
  show alookup (aentryOrInsert (amodify t.map p _) (hash v) _) p = _
  rw [h, alookup_aentryOrInsert_self, alookup_amodify_self]
  rfl

theorem add_child_root {T : Type} (hash : T → NodeId) (t : Tree T)
    (p : NodeId) (v : T) : (t.add_child hash p v).1.root = t.root := rfl

theorem add_child_snd {T : Type} (hash : T → NodeId) (t : Tree T)
    (p : NodeId) (v : T) : (t.add_child hash p v).2 = hash v := rfl

theorem applyOp_root {T : Type} (hash : T → NodeId) (t : Tree T) (op : Op T) :
    (applyOp hash t op).root = t.root := by
  cases op with
  | addChild p v =>
    by_cases hp : (t.get p).isSome <;> simp [applyOp, hp, add_child_root]
  | setValue id v => rfl

theorem runOps_root {T : Type} (hash : T → NodeId) (root : T)
    (ops : List (Op T)) : (runOps hash root ops).root = hash root := by
  suffices h : ∀ t : Tree T, (ops.foldl (applyOp hash) t).root = t.root by
    exact h (Tree.new hash root)
  induction ops with
  | nil => intro t; rfl
  | cons op rest ih =>
    intro t
    rw [List.foldl_cons, ih, applyOp_root]

theorem add_child_get_parent_present {T : Type} (hash : T → NodeId)
    (t : Tree T) {p : NodeId} (v : T) {n : Node T} (hp : t.get p = some n) :
    (t.add_child hash p v).1.get p = some (pushChild (hash v) n) := by
  by_cases h : hash v = p
  · rw [add_child_get_self hash t v h, hp]
    rfl
  · rw [add_child_get_parent hash t v (fun hh => h hh.symm), hp]
    rfl

theorem add_child_child_present {T : Type} (hash : T → NodeId) (t : Tree T)
    (p : NodeId) (v : T) :
    ((t.add_child hash p v).1.get (hash v)).isSome := by
  by_cases h : hash v = p
  · rw [h, add_child_get_self hash t v h]
    rfl
  · rw [add_child_get_child hash t v h]
    rfl

theorem add_child_get_isSome_mono {T : Type} (hash : T → NodeId) (t : Tree T)
    (p : NodeId) (v : T) {id : NodeId} (h : (t.get id).isSome) :
    ((t.add_child hash p v).1.get id).isSome := by
  by_cases h2 : id = p
  · subst h2
    obtain ⟨n, hn⟩ := Option.isSome_iff_exists.mp h
    rw [add_child_get_parent_present hash t v hn]
    rfl
  · by_cases h1 : id = hash v
    · subst h1
      exact add_child_child_present hash t p v
    · rw [add_child_get_other hash t v h1 h2]
      exact h

theorem add_child_get_some_inv {T : Type} (hash : T → NodeId) (t : Tree T)
    (p : NodeId) (v : T) {id : NodeId} {n' : Node T}
    (h : (t.add_child hash p v).1.get id = some n') :
    (∃ n, t.get id = some n ∧ n'.parent = n.parent ∧ n'.value = n.value ∧
        (n'.children = n.children ∨ n'.children = n.children ++ [hash v])) ∨
      (t.get id = none ∧ id = hash v ∧
        n' = { parent := p, children := [], value := v }) := by
  cases hn : t.get id with
  | some n =>
    refine Or.inl ⟨n, rfl, ?_⟩
    by_cases h2 : id = p
    · subst h2
      rw [add_child_get_parent_present hash t v hn] at h
      rw [← Option.some.inj h]
      exact ⟨rfl, rfl, Or.inr rfl⟩
    · by_cases h1 : id = hash v
      · subst h1
        rw [add_child_get_child hash t v h2, hn] at h
        rw [← Option.some.inj h]
        exact ⟨rfl, rfl, Or.inl rfl⟩
      · rw [add_child_get_other hash t v h1 h2, hn] at h
        rw [← Option.some.inj h]
        exact ⟨rfl, rfl, Or.inl rfl⟩
  | none =>
    refine Or.inr ⟨rfl, ?_⟩
    by_cases h2 : id = p
    · subst h2
      by_cases h1 : hash v = id
      · rw [add_child_get_self hash t v h1, hn] at h
        exact ⟨h1.symm, (Option.some.inj h).symm⟩
      · rw [add_child_get_parent hash t v (fun hh => h1 hh.symm), hn] at h
        cases h
    · by_cases h1 : id = hash v
      · subst h1
        rw [add_child_get_child hash t v h2, hn] at h
        exact ⟨rfl, (Option.some.inj h).symm⟩
      · rw [add_child_get_other hash t v h1 h2, hn] at h
        cases h

theorem setValue_get {T : Type} (hash : T → NodeId) (t : Tree T)
    (i : NodeId) (v : T) (id : NodeId) :
    (applyOp hash t (Op.setValue i v)).get id =
      if id = i then (t.get id).map (fun n => { n with value := v })
      else t.get id := by
  by_cases hi : id = i
  · subst hi
    show alookup (amodify t.map id (fun n => { n with value := v })) id = _
    rw [alookup_amodify_self]
    simp only [if_pos rfl]
    rfl
  · show alookup (amodify t.map i (fun n => { n with value := v })) id = _
    rw [alookup_amodify_ne _ _ hi]
    rw [if_neg hi]
    rfl

theorem applyOp_get_isSome_mono {T : Type} (hash : T → NodeId) (t : Tree T)
    (op : Op T) {id : NodeId} (h : (t.get id).isSome) :
    ((applyOp hash t op).get id).isSome := by
  cases op with
  | addChild p v =>
    by_cases hp : (t.get p).isSome
    · simp only [applyOp, hp, if_true]
      exact add_child_get_isSome_mono hash t p v h
    · simpa [applyOp, hp] using h
  | setValue i v =>
    rw [setValue_get]
    by_cases hi : id = i
    · simpa [hi] using h
    · simpa [hi] using h

theorem applyOp_parent_preserved {T : Type} (hash : T → NodeId) (t : Tree T)
    (op : Op T) {id : NodeId} {n n' : Node T} (h : t.get id = some n)
    (h' : (applyOp hash t op).get id = some n') : n'.parent = n.parent := by
  cases op with
  | addChild p v =>
    by_cases hp : (t.get p).isSome
    · simp only [applyOp, hp, if_true] at h'
      rcases add_child_get_some_inv hash t p v h' with
        ⟨m, hm, hpar, _, _⟩ | ⟨habs, _, _⟩
      · rw [h] at hm
        rw [hpar, Option.some.inj hm]
      · rw [habs] at h
        cases h
    · simp [applyOp, hp] at h'
      rw [h] at h'
      injection h' with hh
      rw [hh]
  | setValue i v =>
    rw [setValue_get] at h'
    by_cases hi : id = i
    · rw [if_pos hi, h] at h'
      injection h' with hh
      rw [← hh]
    · rw [if_neg hi, h] at h'
      injection h' with hh
      rw [hh]

theorem treeInv_new {T : Type} (hash : T → NodeId) (root : T) :
    TreeInv (Tree.new hash root) := by
  have hget : ∀ id, (Tree.new hash root).get id =
      if hash root = id
      then some { parent := 0, children := [], value := root }
      else none := by
    intro id
    show alookup [(hash root, _)] id = _
    by_cases h : hash root = id <;> simp [alookup, h]
  constructor
  · rw [hget]
    simp [Tree.new]
  · refine ⟨fun _ => 0, fun id n hn hroot => absurd ?_ hroot⟩
    rw [hget] at hn
    by_cases h : hash root = id
    · exact h.symm
    · rw [if_neg h] at hn
      cases hn
  · intro id n hn c hc
    rw [hget] at hn
    by_cases h : hash root = id
    · rw [if_pos h] at hn
      rw [← Option.some.inj hn] at hc
      cases hc
    · rw [if_neg h] at hn
      cases hn

theorem treeInv_applyOp {T : Type} (hash : T → NodeId) (t : Tree T)
    (op : Op T) (hinv : TreeInv t) : TreeInv (applyOp hash t op) := by
  have hrootmem : ((applyOp hash t op).get (applyOp hash t op).root).isSome := by
    rw [applyOp_root]
    exact applyOp_get_isSome_mono hash t op hinv.rootMem
  cases op with
  | setValue i v =>
    refine ⟨hrootmem, ?_, ?_⟩
    · obtain ⟨rank, hr⟩ := hinv.ranked
      refine ⟨rank, fun id n' h' hroot => ?_⟩
      rw [applyOp_root] at hroot
      rw [setValue_get] at h'
      by_cases hi : id = i
      · rw [if_pos hi] at h'
        cases hn : t.get id with
        | none => rw [hn] at h'; cases h'
        | some n =>
          rw [hn] at h'
          rw [← Option.some.inj h']
          obtain ⟨hps, hlt⟩ := hr id n hn hroot
          exact ⟨applyOp_get_isSome_mono hash t _ hps, hlt⟩
      · rw [if_neg hi] at h'
        obtain ⟨hps, hlt⟩ := hr id n' h' hroot
        exact ⟨applyOp_get_isSome_mono hash t _ hps, hlt⟩
    · intro id n' h' c hc
      rw [setValue_get] at h'
      by_cases hi : id = i
      · rw [if_pos hi] at h'
        cases hn : t.get id with
        | none => rw [hn] at h'; cases h'
        | some n =>
          rw [hn] at h'
          rw [← Option.some.inj h'] at hc
          exact applyOp_get_isSome_mono hash t _ (hinv.closed id n hn c hc)
      · rw [if_neg hi] at h'
        exact applyOp_get_isSome_mono hash t _ (hinv.closed id n' h' c hc)
  | addChild p v =>
    by_cases hp : (t.get p).isSome
    · have happ : applyOp hash t (Op.addChild p v) = (t.add_child hash p v).1 := by
        simp [applyOp, hp]
      rw [happ] at hrootmem ⊢
      refine ⟨hrootmem, ?_, ?_⟩
      · obtain ⟨rank, hr⟩ := hinv.ranked
        by_cases hpre : (t.get (hash v)).isSome
        · -- the child id was already a key: no node is created
          refine ⟨rank, fun id n' h' hroot => ?_⟩
          rw [add_child_root] at hroot
          rcases add_child_get_some_inv hash t p v h' with
            ⟨n, hn, hpar, _, _⟩ | ⟨habs, hid, _⟩
          · obtain ⟨hps, hlt⟩ := hr id n hn hroot
            rw [hpar]
            exact ⟨add_child_get_isSome_mono hash t p v hps, hlt⟩
          · rw [← hid, habs] at hpre
            simp at hpre
        · -- a fresh node keyed `hash v` is created with parent `p`
          have hvp : hash v ≠ p := by
            intro hh
            rw [hh] at hpre
            exact hpre hp
          refine ⟨fun x => if x = hash v then rank p + 1 else rank x,
            fun id n' h' hroot => ?_⟩
          rw [add_child_root] at hroot
          rcases add_child_get_some_inv hash t p v h' with
            ⟨n, hn, hpar, _, _⟩ | ⟨habs, hid, hnode⟩
          · have hid : id ≠ hash v := by
              intro hh
              rw [hh] at hn
              rw [hn] at hpre
              cases hpre rfl
            obtain ⟨hps, hlt⟩ := hr id n hn hroot
            have hpne : n.parent ≠ hash v := by
              intro hh
              rw [hh] at hps
              exact hpre hps
            rw [hpar]
            refine ⟨add_child_get_isSome_mono hash t p v hps, ?_⟩
            show (if n.parent = hash v then rank p + 1 else rank n.parent) <
              (if id = hash v then rank p + 1 else rank id)
            rw [if_neg hpne, if_neg hid]
            exact hlt
          · subst hid
            have hppar : n'.parent = p := by rw [hnode]
            rw [hppar]
            constructor
            · exact add_child_get_isSome_mono hash t p v hp
            · show (if p = hash v then rank p + 1 else rank p) <
                (if hash v = hash v then rank p + 1 else rank (hash v))
              rw [if_neg (fun hh => hvp hh.symm), if_pos rfl]
              exact Nat.lt_succ_self (rank p)
      · intro id n' h' c hc
        rcases add_child_get_some_inv hash t p v h' with
          ⟨n, hn, _, _, hch⟩ | ⟨_, _, hnode⟩
        · rcases hch with hch | hch
          · rw [hch] at hc
            exact add_child_get_isSome_mono hash t p v (hinv.closed id n hn c hc)
          · rw [hch] at hc
            rcases List.mem_append.mp hc with hc1 | hc1
            · exact add_child_get_isSome_mono hash t p v
                (hinv.closed id n hn c hc1)
            · rw [List.mem_singleton.mp hc1]
              exact add_child_child_present hash t p v
        · rw [hnode] at hc
          simp at hc
    · simpa [applyOp, hp] using hinv

theorem treeInv_runOps {T : Type} (hash : T → NodeId) (root : T)
    (ops : List (Op T)) : TreeInv (runOps hash root ops) := by
  suffices h : ∀ t : Tree T, TreeInv t → TreeInv (ops.foldl (applyOp hash) t) from
    h _ (treeInv_new hash root)
  induction ops with
  | nil => exact fun t ht => ht
  | cons op rest ih => exact fun t ht => ih _ (treeInv_applyOp hash t op ht)

theorem reaches_of_ranked {T : Type} {t : Tree T} {rank : NodeId → Nat}
    (hr : Ranked t rank) :
    ∀ k id, rank id = k → (t.get id).isSome → ReachesRoot t id := by
  intro k
  induction k using Nat.strong_induction_on with
  | _ k ih =>
    intro id hk hs
    by_cases hroot : id = t.root
    · rw [hroot]
      exact ReachesRoot.root
    · obtain ⟨n, hn⟩ := Option.isSome_iff_exists.mp hs
      obtain ⟨hps, hlt⟩ := hr id n hn hroot
      exact ReachesRoot.step id n hn hroot
        (ih (rank n.parent) (hk ▸ hlt) n.parent rfl hps)

theorem strictAnc_rank_lt {T : Type} {t : Tree T} {rank : NodeId → Nat}
    (hr : Ranked t rank) {a b : NodeId} (h : StrictAnc t a b) :
    rank a < rank b := by
  induction h with
  | parent id n hn hroot => exact (hr id n hn hroot).2
  | trans a b c _ _ ih1 ih2 => exact ih1.trans ih2

theorem strictAnc_irrefl_of_ranked {T : Type} {t : Tree T}
    {rank : NodeId → Nat} (hr : Ranked t rank) (id : NodeId) :
    ¬StrictAnc t id id := fun h =>
  Nat.lt_irrefl (rank id) (strictAnc_rank_lt hr h)

theorem getBestChildLoop_isSome {T Score : Type} [LinearOrder Score]
    (t : Tree T) (f : T → Score) :
    ∀ (cs : List NodeId) (ms : Option Score) (b : Option NodeId),
      (∀ c ∈ cs, (t.get c).isSome) →
      (getBestChildLoop t f cs ms b).isSome := by
  intro cs
  induction cs with
  | nil => intro ms b _; rfl
  | cons c rest ih =>
    intro ms b hpres
    have hc := hpres c (List.mem_cons_self c rest)
    obtain ⟨child, hchild⟩ := Option.isSome_iff_exists.mp hc
    have hrest : ∀ x ∈ rest, (t.get x).isSome :=
      fun x hx => hpres x (List.mem_cons_of_mem c hx)
    cases ms with
    | none =>
      simp only [getBestChildLoop, hchild]
      exact ih _ _ hrest
    | some m =>
      simp only [getBestChildLoop, hchild]
      by_cases hlt : m < f child.value
      · simp only [decide_eq_true hlt, if_true]
        exact ih _ _ hrest
      · simp only [decide_eq_false hlt, Bool.false_eq_true, if_false]
        exact ih _ _ hrest

theorem getBestChildLoop_from {T Score : Type} [LinearOrder Score]
    (t : Tree T) (f : T → Score) (g : NodeId → Score) :
    ∀ (cs : List NodeId) (b : NodeId),
      (∀ c ∈ cs, (t.get c).map (fun m => f m.value) = some (g c)) →
      ∃ r, getBestChildLoop t f cs (some (g b)) (some b) = some (some r) ∧
        ((r = b ∧ ∀ x ∈ cs, g x ≤ g b) ∨
          (∃ q1 q2, cs = q1 ++ r :: q2 ∧ g b < g r ∧
            (∀ x ∈ q1, g x < g r) ∧ (∀ x ∈ q2, g x ≤ g r))) := by
  intro cs
  induction cs with
  | nil => exact fun b _ => ⟨b, rfl, Or.inl ⟨rfl, by simp⟩⟩
  | cons c rest ih =>
    intro b hg
    have hc := hg c (List.mem_cons_self c rest)
    cases hchild : t.get c with
    | none => rw [hchild] at hc; cases hc
    | some child =>
      rw [hchild] at hc
      have hfc : f child.value = g c := Option.some.inj hc
      have hgrest : ∀ x ∈ rest,
          (t.get x).map (fun m => f m.value) = some (g x) :=
        fun x hx => hg x (List.mem_cons_of_mem c hx)
      by_cases hbc : g b < g c
      · obtain ⟨r, hr, hcase⟩ := ih c hgrest
        refine ⟨r, ?_, ?_⟩
        · simp only [getBestChildLoop, hchild]
          rw [hfc, if_pos (decide_eq_true hbc)]
          exact hr
        · rcases hcase with ⟨rfl, hle⟩ | ⟨q1, q2, heq, hlt, hq1, hq2⟩
          · exact Or.inr ⟨[], rest, rfl, hbc, by simp, hle⟩
          · refine Or.inr ⟨c :: q1, q2, by simp [heq], hbc.trans hlt,
              fun x hx => ?_, hq2⟩
            rcases List.mem_cons.mp hx with rfl | hx
            · exact hlt
            · exact hq1 x hx
      · obtain ⟨r, hr, hcase⟩ := ih b hgrest
        refine ⟨r, ?_, ?_⟩
        · simp only [getBestChildLoop, hchild]
          rw [hfc, if_neg (fun hh => hbc (of_decide_eq_true hh))]
          exact hr
        · rcases hcase with ⟨rfl, hle⟩ | ⟨q1, q2, heq, hlt, hq1, hq2⟩
          · refine Or.inl ⟨rfl, fun x hx => ?_⟩
            rcases List.mem_cons.mp hx with rfl | hx
            · exact le_of_not_lt hbc
            · exact hle x hx
          · refine Or.inr ⟨c :: q1, q2, by simp [heq], hlt, fun x hx => ?_, hq2⟩
            rcases List.mem_cons.mp hx with rfl | hx
            · exact lt_of_le_of_lt (le_of_not_lt hbc) hlt
            · exact hq1 x hx

/-- C2: for every store created by `new` or `with_capacity` and every finite
sequence of public operations (in particular `add_child` calls), the parent
links form no cycle — no node is a strict ancestor of itself — and the
ancestor chain of every node in the map terminates at the root. -/
theorem runOps_acyclic {T : Type} (hash : T → NodeId) (root : T)
    (ops : List (Op T)) (id : NodeId)
    (hmem : ((runOps hash root ops).get id).isSome) :
    ReachesRoot (runOps hash root ops) id ∧
      ¬StrictAnc (runOps hash root ops) id id := by
  obtain ⟨rank, hr⟩ := (treeInv_runOps hash root ops).ranked
  exact ⟨reaches_of_ranked hr (rank id) id rfl hmem,
    strictAnc_irrefl_of_ranked hr id⟩

/-- Witness for C2 at a concrete store: root `1`, one child `2`. -/
theorem runOps_acyclic_witness :
    ((runOps (fun n => n) 1 [Op.addChild 1 2]).get 2).isSome ∧
      (ReachesRoot (runOps (fun n => n) 1 [Op.addChild 1 2]) 2 ∧
        ¬StrictAnc (runOps (fun n => n) 1 [Op.addChild 1 2]) 2 2) :=
  ⟨by decide, runOps_acyclic (fun n => n) 1 [Op.addChild 1 2] 2 (by decide)⟩

/-- C3: on a node handle whose children are all present (with score `g c` for
child `c`), `get_best_child` does not panic; it returns `none` exactly when
the node has no children, and otherwise the first child attaining the maximum
score: every earlier child scores strictly less and no child scores more. -/
theorem get_best_child_first_argmax {T Score : Type} [LinearOrder Score]
    (t : Tree T) (n : Node T) (f : T → Score) (g : NodeId → Score)
    (hg : ∀ c ∈ n.children, (t.get c).map (fun m => f m.value) = some (g c)) :
    (n.children = [] → t.get_best_child n f = some none) ∧
    (n.children ≠ [] → ∃ r q1 q2,
      t.get_best_child n f = some (some r) ∧
      n.children = q1 ++ r :: q2 ∧
      (∀ x ∈ q1, g x < g r) ∧ (∀ x ∈ n.children, g x ≤ g r)) := by
  constructor
  · intro he
    show getBestChildLoop t f n.children none none = some none
    rw [he]
    rfl
  · intro hne
    cases hcs : n.children with
    | nil => cases hne hcs
    | cons c rest =>
      rw [hcs] at hg
      have hc := hg c (List.mem_cons_self c rest)
      cases hchild : t.get c with
      | none => rw [hchild] at hc; cases hc
      | some child =>
        rw [hchild] at hc
        have hfc : f child.value = g c := Option.some.inj hc
        have hgrest : ∀ x ∈ rest,
            (t.get x).map (fun m => f m.value) = some (g x) :=
          fun x hx => hg x (List.mem_cons_of_mem c hx)
        obtain ⟨r, hr, hcase⟩ := getBestChildLoop_from t f g rest c hgrest
        have hloop : t.get_best_child n f = some (some r) := by
          show getBestChildLoop t f n.children none none = _
          rw [hcs]
          simp only [getBestChildLoop, hchild]
          rw [hfc]
          exact hr
        rcases hcase with ⟨rfl, hle⟩ | ⟨q1, q2, heq, hlt, hq1, hq2⟩
        · refine ⟨r, [], rest, hloop, rfl, by simp, ?_⟩
          intro x hx
          rcases List.mem_cons.mp hx with rfl | hx
          · exact le_refl _
          · exact hle x hx
        · refine ⟨r, c :: q1, q2, hloop, by simp [heq], ?_, ?_⟩
          · intro x hx
            rcases List.mem_cons.mp hx with rfl | hx
            · exact hlt
            · exact hq1 x hx
          · intro x hx
            rcases List.mem_cons.mp hx with rfl | hx
            · exact le_of_lt hlt
            · rw [heq] at hx
              rcases List.mem_append.mp hx with hx | hx
              · exact le_of_lt (hq1 x hx)
              · rcases List.mem_cons.mp hx with rfl | hx
                · exact le_refl _
                · exact hq2 x hx

/-- Witness for C3 at a concrete store: root `1` with children `2, 3`,
scored by their payloads. -/
theorem get_best_child_first_argmax_witness :
    (∀ c ∈ ({ parent := 0, children := [2, 3], value := 1 } :
        Node Nat).children,
      (((((Tree.new (fun n => n) 1).add_child (fun n => n) 1 2).1.add_child
        (fun n => n) 1 3).1).get c).map
          (fun m => (fun v => v) m.value) = some ((fun c => c) c)) ∧
    (((({ parent := 0, children := [2, 3], value := 1 } :
        Node Nat).children = []) →
      ((((Tree.new (fun n => n) 1).add_child (fun n => n) 1 2).1.add_child
        (fun n => n) 1 3).1).get_best_child
          { parent := 0, children := [2, 3], value := 1 }
          (fun v => v) = some none) ∧
    ((({ parent := 0, children := [2, 3], value := 1 } :
        Node Nat).children ≠ []) → ∃ r q1 q2,
      ((((Tree.new (fun n => n) 1).add_child (fun n => n) 1 2).1.add_child
        (fun n => n) 1 3).1).get_best_child
          { parent := 0, children := [2, 3], value := 1 }
          (fun v => v) = some (some r) ∧
      ({ parent := 0, children := [2, 3], value := 1 } :
        Node Nat).children = q1 ++ r :: q2 ∧
      (∀ x ∈ q1, (fun c => c) x < (fun c => c) r) ∧
      (∀ x ∈ ({ parent := 0, children := [2, 3], value := 1 } :
        Node Nat).children, (fun c => c) x ≤ (fun c => c) r))) :=
  ⟨by decide, get_best_child_first_argmax
    ((((Tree.new (fun n => n) 1).add_child (fun n => n) 1 2).1.add_child
      (fun n => n) 1 3).1)
    { parent := 0, children := [2, 3], value := 1 }
    (fun v => v) (fun c => c) (by decide)⟩

/-- C10: in every store reachable by public operations, every id in any
node's children list is a key of the map, so `get_best_child` never hits the
absent case of its per-child lookup (its `unwrap` cannot panic). -/
theorem children_closed_no_panic {T Score : Type} [LinearOrder Score]
    (hash : T → NodeId) (root : T) (ops : List (Op T)) (id : NodeId)
    (n : Node T) (f : T → Score)
    (hn : (runOps hash root ops).get id = some n) :
    (∀ c ∈ n.children, ((runOps hash root ops).get c).isSome) ∧
    (runOps hash root ops).get_best_child n f ≠ none := by
  have hclosed := (treeInv_runOps hash root ops).closed id n hn
  refine ⟨hclosed, ?_⟩
  have h2 : ((runOps hash root ops).get_best_child n f).isSome :=
    getBestChildLoop_isSome (runOps hash root ops) f n.children none none
      hclosed
  intro hcontra
  rw [hcontra] at h2
  cases h2

/-- Witness for C10 at a concrete store: root `1` with children `2, 3`. -/
theorem children_closed_no_panic_witness :
    (runOps (fun n => n) 1 [Op.addChild 1 2, Op.addChild 1 3]).get 1 =
      some { parent := 0, children := [2, 3], value := 1 } ∧
    ((∀ c ∈ ({ parent := 0, children := [2, 3], value := 1 } :
        Node Nat).children,
      ((runOps (fun n => n) 1 [Op.addChild 1 2, Op.addChild 1 3]).get
        c).isSome) ∧
    (runOps (fun n => n) 1
        [Op.addChild 1 2, Op.addChild 1 3]).get_best_child
      { parent := 0, children := [2, 3], value := 1 }
      (fun v => (v : Nat)) ≠ none) :=
  ⟨by decide, children_closed_no_panic (fun n => n) 1
    [Op.addChild 1 2, Op.addChild 1 3] 1
    { parent := 0, children := [2, 3], value := 1 }
    (fun v => (v : Nat)) (by decide)⟩

/-- C7: the root node is present in every store reachable by public
operations (so the `unwrap` in `Tree::root` cannot fail), and no operation
ever removes a node: any id present before an operation is present after
it. -/
theorem root_present_no_removal {T : Type} (hash : T → NodeId) (root : T)
    (ops : List (Op T)) (t : Tree T) (op : Op T) (id : NodeId)
    (h : (t.get id).isSome) :
    ((runOps hash root ops).root_node).isSome ∧
      ((applyOp hash t op).get id).isSome :=
  ⟨(treeInv_runOps hash root ops).rootMem,
    applyOp_get_isSome_mono hash t op h⟩

/-- Witness for C7 at a concrete store and operation. -/
theorem root_present_no_removal_witness :
    ((Tree.new (fun n => n) 1).get 1).isSome ∧
      (((runOps (fun n => n) 1 [Op.addChild 1 2]).root_node).isSome ∧
        ((applyOp (fun n => n) (Tree.new (fun n => n) 1)
          (Op.addChild 1 2)).get 1).isSome) :=
  ⟨by decide, root_present_no_removal (fun n => n) 1 [Op.addChild 1 2]
    (Tree.new (fun n => n) 1) (Op.addChild 1 2) 1 (by decide)⟩

/-- C1 counterexample: in the store with root `5` under identity hashing,
calling `add_child` on the root with a value hashing to `5` finds the node
keyed `5` already present, yet that node's children list changes from `[]`
to `[5]` — the pre-existing node is not left unchanged. -/
theorem add_child_existing_changed_counterexample :
    ((Tree.new (fun n => n) 5).get 5).isSome ∧
    ((Tree.new (fun n => n) 5).add_child (fun n => n) 5 5).1.get 5 =
      some { parent := 0, children := [5], value := 5 } ∧
    ((Tree.new (fun n => n) 5).add_child (fun n => n) 5 5).1.get 5 ≠
      (Tree.new (fun n => n) 5).get 5 := by
  decide

/-- C1 (amended): `add_child` computes `id = hash value` and returns a handle
to the node stored under `id`; if no node keyed `id` existed, a fresh node
with parent the calling node's id, empty children and payload `value` is
inserted; if one existed, its payload and parent are left unchanged, and its
children too unless `id` equals the calling node's own id, in which case the
only change to it is the id appended to that (same) node's children list. -/
theorem add_child_get_or_insert {T : Type} (hash : T → NodeId) (t : Tree T)
    (p : NodeId) (v : T) (n : Node T) (hp : t.get p = some n) :
    (t.add_child hash p v).2 = hash v ∧
    ((t.add_child hash p v).1.get (hash v)).isSome ∧
    (t.get (hash v) = none →
      (t.add_child hash p v).1.get (hash v) =
        some { parent := p, children := [], value := v }) ∧
    (∀ m, t.get (hash v) = some m →
      (t.add_child hash p v).1.get (hash v) =
        some (if hash v = p then pushChild (hash v) m else m)) := by
  refine ⟨rfl, add_child_child_present hash t p v, ?_, ?_⟩
  · intro habs
    have hvp : hash v ≠ p := by
      intro hh
      rw [hh, hp] at habs
      cases habs
    rw [add_child_get_child hash t v hvp, habs]
    rfl
  · intro m hm
    by_cases hvp : hash v = p
    · rw [hvp] at hm
      rw [hp] at hm
      injection hm with hmn
      subst hmn
      rw [hvp, add_child_get_self hash t v hvp, hp, if_pos rfl, hvp]
      rfl
    · rw [add_child_get_child hash t v hvp, hm, if_neg hvp]
      rfl

/-- Witness for C1 (amended) at the store with root `5`, adding a value that
hashes to the root's own id. -/
theorem add_child_get_or_insert_witness :
    (Tree.new (fun n => n) 5).get 5 =
      some { parent := 0, children := [], value := 5 } ∧
    (((Tree.new (fun n => n) 5).add_child (fun n => n) 5 5).2 = 5 ∧
      (((Tree.new (fun n => n) 5).add_child (fun n => n) 5 5).1.get 5).isSome ∧
      ((Tree.new (fun n => n) 5).get 5 = none →
        ((Tree.new (fun n => n) 5).add_child (fun n => n) 5 5).1.get 5 =
          some { parent := 5, children := [], value := 5 }) ∧
      (∀ m, (Tree.new (fun n => n) 5).get 5 = some m →
        ((Tree.new (fun n => n) 5).add_child (fun n => n) 5 5).1.get 5 =
          some (if (5 : NodeId) = 5 then pushChild 5 m else m))) :=
  ⟨by decide, add_child_get_or_insert (fun n => n) (Tree.new (fun n => n) 5)
    5 5 { parent := 0, children := [], value := 5 } (by decide)⟩

/-- C9: `add_child` appends the computed id to the calling node's children
list unconditionally, before the absence check, so two calls on the same
parent with values of equal hash leave that id listed twice in the parent's
children list. -/
theorem add_child_children_duplicate {T : Type} (hash : T → NodeId)
    (t : Tree T) (p : NodeId) (v1 v2 : T) (n : Node T)
    (hp : t.get p = some n) (hh : hash v1 = hash v2) :
    ((t.add_child hash p v1).1.add_child hash p v2).1.get p =
      some { n with children := n.children ++ [hash v1, hash v1] } ∧
    2 ≤ (n.children ++ [hash v1, hash v1]).count (hash v1) := by
  have h1 := add_child_get_parent_present hash t v1 hp
  have h2 := add_child_get_parent_present hash (t.add_child hash p v1).1
    v2 h1
  constructor
  · rw [h2, ← hh]
    show some (pushChild (hash v1) (pushChild (hash v1) n)) = _
    simp [pushChild]
  · rw [List.count_append]
    simp

/-- Witness for C9 at the store with root `1`, adding the value `2` twice. -/
theorem add_child_children_duplicate_witness :
    (Tree.new (fun n => n) 1).get 1 =
      some { parent := 0, children := [], value := 1 } ∧
    ((2 : NodeId) = 2) ∧
    ((((Tree.new (fun n => n) 1).add_child (fun n => n) 1 2).1.add_child
        (fun n => n) 1 2).1.get 1 =
      some { parent := 0, children := [2, 2], value := 1 } ∧
      2 ≤ ([] ++ [2, 2] : List NodeId).count 2) :=
  ⟨by decide, rfl,
    add_child_children_duplicate (fun n => n) (Tree.new (fun n => n) 1)
      1 2 2 { parent := 0, children := [], value := 1 } (by decide) rfl⟩

/-- C6 counterexample: with identity hashing and root state `0`, the root id
is `0`; the child keyed `7` is not the root, yet `parent_id` on it panics,
because its stored parent — the root's id `0` — collides with the
sentinel. -/
theorem parent_id_nonroot_panic_counterexample :
    ((((Tree.new (fun n => n) 0).add_child (fun n => n) 0 7).1.root) ≠ 7) ∧
    ((((Tree.new (fun n => n) 0).add_child (fun n => n) 0 7).1.get 7).map
      Node.parent_id) = some none := by
  decide

/-- C6 (amended): `parent_id` panics exactly when the stored parent id is the
sentinel `0` — true of the root, but also of any non-root node whose first
creator has id `0`; otherwise it returns the stored parent id, which is the
id of the node that first created it: the parent field is set by `add_child`
to the calling node's id at creation and no operation ever changes it. -/
theorem parent_id_amended {T : Type} (hash : T → NodeId) (t : Tree T)
    (op : Op T) (p id : NodeId) (v : T) (n n' : Node T)
    (h1 : t.get id = some n) (h2 : (applyOp hash t op).get id = some n')
    (hp : (t.get p).isSome) (habs : t.get (hash v) = none) :
    (n.parent_id = none ↔ n.parent = 0) ∧
    (n.parent ≠ 0 → n.parent_id = some n.parent) ∧
    n'.parent = n.parent ∧
    (∃ c, (t.add_child hash p v).1.get (hash v) = some c ∧ c.parent = p) := by
  refine ⟨?_, ?_, applyOp_parent_preserved hash t op h1 h2, ?_⟩
  · unfold Node.parent_id
    by_cases h : n.parent = 0 <;> simp [h]
  · intro h
    unfold Node.parent_id
    rw [if_neg h]
  · have hvp : hash v ≠ p := by
      intro hh
      rw [← hh, habs] at hp
      simp at hp
    rw [add_child_get_child hash t v hvp, habs]
    exact ⟨_, rfl, rfl⟩

/-- Witness for C6 (amended) at the store with root `0` (identity hashing),
a payload rewrite on the root, and the insertion of the absent value `7`. -/
theorem parent_id_amended_witness :
    (Tree.new (fun n => n) 0).get 0 =
      some { parent := 0, children := [], value := 0 } ∧
    (applyOp (fun n => n) (Tree.new (fun n => n) 0) (Op.setValue 0 0)).get 0 =
      some { parent := 0, children := [], value := 0 } ∧
    ((Tree.new (fun n => n) 0).get 0).isSome ∧
    (Tree.new (fun n => n) 0).get 7 = none ∧
    ((({ parent := 0, children := [], value := 0 } : Node Nat).parent_id =
        none ↔
      ({ parent := 0, children := [], value := 0 } : Node Nat).parent = 0) ∧
    (({ parent := 0, children := [], value := 0 } : Node Nat).parent ≠ 0 →
      ({ parent := 0, children := [], value := 0 } : Node Nat).parent_id =
        some ({ parent := 0, children := [], value := 0 } :
          Node Nat).parent) ∧
    ({ parent := 0, children := [], value := 0 } : Node Nat).parent =
      ({ parent := 0, children := [], value := 0 } : Node Nat).parent ∧
    (∃ c, ((Tree.new (fun n => n) 0).add_child (fun n => n) 0 7).1.get 7 =
      some c ∧ c.parent = 0)) :=
  ⟨by decide, by decide, by decide, by decide,
    parent_id_amended (fun n => n) (Tree.new (fun n => n) 0)
      (Op.setValue 0 0) 0 0 7
      { parent := 0, children := [], value := 0 }
      { parent := 0, children := [], value := 0 }
      (by decide) (by decide) (by decide) (by decide)⟩

/-- C4: constructing the orchestrator (`new` or `with_capacity`) seeds the
store with a root node keyed by the root state's hash whose payload has zero
reward sum, visit count `0`, untried moves equal to the root state's full
legal-move list (hence of the same size), an empty trajectory, and default
additional info; the stored root state is the given one and `new` is
`with_capacity` with capacity `0`. -/
theorem with_capacity_root_seeding {State Move Turn R A : Type} [Zero R]
    [Inhabited A] (g : GameOps State Move Turn) (rs : State) (c : Nat) :
    (LazyMcts.with_capacity (R := R) (A := A) g rs c).tree.get (g.hash rs) =
      some { parent := 0, children := [],
             value := { sum_rewards := (0 : R), n_visits := 0,
                        unvisited_moves := g.legals_moves rs,
                        hash := g.hash rs, state := [],
                        additional_info := (default : A) } } ∧
    (LazyMcts.with_capacity (R := R) (A := A) g rs c).tree.root =
      g.hash rs ∧
    (LazyMcts.with_capacity (R := R) (A := A) g rs c).root_state = rs ∧
    LazyMcts.new (R := R) (A := A) g rs =
      LazyMcts.with_capacity (R := R) (A := A) g rs 0 := by
  refine ⟨?_, rfl, rfl, rfl⟩
  show alookup [(g.hash rs, _)] (g.hash rs) = _
  simp [alookup]

/-- C5: `best_move` looks up the child chosen by the tree policy's
`best_child` rule (given the store, the root player's turn and the root id)
and returns the last move of that child's stored trajectory; it panics
exactly when that trajectory is empty. -/
theorem best_move_last_of_trajectory {State Move Turn R A Args : Type}
    (m : LazyMcts State Move Turn R A)
    (bc : Tree (LazyMctsNode Move R A) → Turn → NodeId → Args → NodeId)
    (g : GameOps State Move Turn) (args : Args)
    (node : Node (LazyMctsNode Move R A))
    (h : m.tree.get (bc m.tree (g.player_turn m.root_state)
      m.tree.root_id args) = some node) :
    m.best_move bc g args = some node.value.state.getLast? ∧
    (node.value.state = [] → m.best_move bc g args = some none) ∧
    (∀ mv (tr : List Move), node.value.state = tr ++ [mv] →
      m.best_move bc g args = some (some mv)) := by
  have hbm : m.best_move bc g args = some node.value.state.getLast? := by
    show (match m.tree.get (bc m.tree (g.player_turn m.root_state)
        m.tree.root_id args) with
      | none => none
      | some nd => some nd.value.state.getLast?) = _
    rw [h]
  refine ⟨hbm, ?_, ?_⟩
  · intro he
    rw [hbm, he]
    rfl
  · intro mv tr htr
    rw [hbm, htr, List.getLast?_concat]

/-- Witness for C5 on the concrete sample orchestrator, whose policy picks
the child `2` with trajectory `[42]`. -/
theorem best_move_last_of_trajectory_witness :
    sampleMcts.tree.get 2 =
      some { parent := 1, children := [],
             value := { sum_rewards := 0, n_visits := 0,
                        unvisited_moves := [], hash := 2, state := [42],
                        additional_info := 0 } } ∧
    (sampleMcts.best_move (fun _ _ _ _ => 2) sampleGame 0 = some (some 42) ∧
      (([42] : List Nat) = [] →
        sampleMcts.best_move (fun _ _ _ _ => 2) sampleGame 0 = some none) ∧
      (∀ mv (tr : List Nat), ([42] : List Nat) = tr ++ [mv] →
        sampleMcts.best_move (fun _ _ _ _ => 2) sampleGame 0 =
          some (some mv))) :=
  ⟨by decide,
    best_move_last_of_trajectory sampleMcts (fun _ _ _ _ => 2) sampleGame 0
      { parent := 1, children := [],
        value := { sum_rewards := 0, n_visits := 0, unvisited_moves := [],
                   hash := 2, state := [42], additional_info := 0 } }
      (by decide)⟩

/-- C8: `execute` passes the stored root state (its clone — cloning is the
identity on values) to the tree policy, leaves `root_state` equal to its
value at construction, and the node store is the only component it
changes. -/
theorem execute_frame {State Move Turn R A EArgs PArgs EvalR : Type}
    (m : LazyMcts State Move Turn R A)
    (tp : Tree (LazyMctsNode Move R A) → State → EArgs → NodeId × State)
    (pp : State → PArgs → State) (ev : State → Turn → EvalR)
    (bp : Tree (LazyMctsNode Move R A) → NodeId → EvalR →
      Tree (LazyMctsNode Move R A))
    (g : GameOps State Move Turn) (ea : EArgs) (pa : PArgs) :
    (m.execute tp pp ev bp g ea pa).root_state = m.root_state ∧
    m.execute tp pp ev bp g ea pa =
      { root_state := m.root_state,
        tree := bp m.tree (tp m.tree m.root_state ea).1
          (ev (pp (tp m.tree m.root_state ea).2 pa)
            (g.player_turn m.root_state)) } :=
  ⟨rfl, rfl⟩

end OxyMcts
